import Mathlib

/-!
Verification of `backend/fix_configs.py`, a batch text patcher that rewrites
ORM configuration files from SQL-Server syntax to PostgreSQL syntax.

Text is modelled as `List Char` (Python `str` is a sequence of code points;
the script reads and writes UTF-8, so file bytes decode to exactly this
sequence).  `replace` below embeds Python's `str.replace(old, new)`:
it scans left to right and replaces every non-overlapping occurrence.
`fix_content` embeds the body of the per-file loop (the four sequential
`content.replace` calls, source lines 19-26).
-/

namespace FixConfigs

/-- Fuel-driven worker for `replace`.  At each position: if `pat` is a
prefix of the rest, emit `rep` and skip `pat.length` characters, else emit
one character and continue.  `fuel` only bounds the recursion; the scan
consumes at least one character per step once `pat` is nonempty, so
`fuel = s.length` is always enough. -/
def replaceAux (pat rep : List Char) : Nat → List Char → List Char
  | 0, s => s
  | _ + 1, [] => []
  | fuel + 1, c :: rest =>
    if pat.isPrefixOf (c :: rest) then
      rep ++ replaceAux pat rep fuel ((c :: rest).drop pat.length)
    else
      c :: replaceAux pat rep fuel rest

/-- Python's `s.replace(pat, rep)`: replace every non-overlapping occurrence
of `pat`, scanning left to right.  The script only ever calls it with the
four nonempty literal patterns below, so the `pat = []` guard is never hit. -/
def replace (s pat rep : List Char) : List Char :=
  if pat = [] then s else replaceAux pat rep s.length s

/-- Pattern of rule 1 (source line 19). -/
def pat1 : List Char := "GETUTCDATE()".toList

/-- Replacement of rule 1. -/
def rep1 : List Char := "NOW()".toList

/-- Pattern of rule 2 (source line 22). -/
def pat2 : List Char := "HasColumnType(\"datetime\")".toList

/-- Replacement of rule 2. -/
def rep2 : List Char := "HasColumnType(\"timestamp with time zone\")".toList

/-- Pattern of rule 3 (source line 25). -/
def pat3 : List Char := "HasColumnType(\"NVARCHAR(MAX)\")".toList

/-- Replacement of rules 3 and 4. -/
def rep3 : List Char := "HasColumnType(\"text\")".toList

/-- Pattern of rule 4 (source line 26). -/
def pat4 : List Char := "HasColumnType(\"nvarchar(max)\")".toList

/-- Replacement of rule 4 (same literal as rule 3's replacement). -/
def rep4 : List Char := "HasColumnType(\"text\")".toList

/-- The per-file transform: the four sequential `content.replace` calls of
source lines 19-26, each consuming the previous result. -/
def fix_content (content : List Char) : List Char :=
  replace (replace (replace (replace content pat1 rep1) pat2 rep2) pat3 rep3) pat4 rep4

/-- The ordered rule list, as the specification presents it. -/
def rules : List (List Char × List Char) :=
  [(pat1, rep1), (pat2, rep2), (pat3, rep3), (pat4, rep4)]

/-- Modelled from the spec's words (operation `apply_rules`): the left fold
over the rule list, each rule's literal replace-all taking the previous
rule's output as input.  Compared against `fix_content` in claim C1. -/
def apply_rules (text : List Char) (rs : List (List Char × List Char)) : List Char :=
  rs.foldl (fun t r => replace t r.1 r.2) text

/-- Decidable sufficient condition under which replacing `pat` by `rep` can
neither leave nor create an occurrence of `q`: `q` is not inside `rep`, no
nonempty suffix of `rep` starts `q`, no nonempty prefix of `rep` ends `q`,
and `rep` is not inside `q`. -/
def safePair (pat rep q : List Char) : Prop :=
  pat ≠ [] ∧ rep ≠ [] ∧ q ≠ [] ∧ ¬ q <:+: rep ∧
    (∀ t ∈ rep.tails, t ≠ [] → ¬ t <+: q) ∧
    (∀ t ∈ rep.inits, t ≠ [] → ¬ t <:+ q) ∧ ¬ rep <:+: q

instance (pat rep q : List Char) : Decidable (safePair pat rep q) := by
  unfold safePair
  infer_instance

/-- Number of positions of `s` at which `pat` occurs (occurrences may
overlap; the four rule patterns cannot overlap themselves, so for them this
is the plain occurrence count). -/
def numOccs (pat s : List Char) : Nat :=
  ((List.range (s.length + 1)).filter (fun i => pat.isPrefixOf (s.drop i))).length

/-- A directory entry as `os.listdir` reports it: a name, whether it is a
subdirectory, the I/O permissions the environment grants (`readOk` also
covers a UTF-8 decode failure), and the file's text. -/
structure Entry where
  name : List Char
  isDir : Bool
  readOk : Bool
  writeOk : Bool
  content : List Char
deriving DecidableEq

/-- `f.endswith('.cs')` (source line 8). -/
def csSuffix (n : List Char) : Bool :=
  ".cs".toList.isSuffixOf n

/-- Source line 8: `[f for f in os.listdir(config_dir) if f.endswith('.cs')]`.
`os.listdir` yields the names of all entries, files and subdirectories
alike; the comprehension filters on the name alone. -/
def cs_files (dir : List Entry) : List (List Char) :=
  (dir.filter (fun e => csSuffix e.name)).map (fun e => e.name)

/-- Filesystem name lookup used by `open`. -/
def findEntry (dir : List Entry) (n : List Char) : Option Entry :=
  dir.find? (fun e => e.name == n)

/-- Observable actions of the run: file reads, file writes, printed lines. -/
inductive Event where
  | read : List Char → Event
  | write : List Char → List Char → Event
  | print : List Char → Event
deriving DecidableEq

/-- An unhandled I/O exception, tagged with the failing filename. -/
inductive IOError where
  | readError : List Char → IOError
  | writeError : List Char → IOError
deriving DecidableEq

/-- `open(filepath, 'r', encoding='utf-8').read()` (source lines 13-14):
fails if the entry is missing, is a directory, or the environment denies
the read (permission or decode error); otherwise yields the text. -/
def readFile (dir : List Entry) (n : List Char) : Except IOError (List Char) :=
  match findEntry dir n with
  | none => Except.error (IOError.readError n)
  | some e =>
    if e.isDir || !e.readOk then Except.error (IOError.readError n)
    else Except.ok e.content

/-- Overwrite the content of the entry named `n`. -/
def updEntry (n c : List Char) (e : Entry) : Entry :=
  if e.name == n then { e with content := c } else e

/-- `open(filepath, 'w', encoding='utf-8').write(content)` (source lines
30-31): fails if the entry is missing or the environment denies the write. -/
def writeFile (dir : List Entry) (n c : List Char) : Except IOError (List Entry) :=
  match findEntry dir n with
  | none => Except.error (IOError.writeError n)
  | some e =>
    if e.writeOk then Except.ok (dir.map (updEntry n c))
    else Except.error (IOError.writeError n)

/-- The line `print(f"Fixed: {filename}")` emits (source line 33). -/
def fixedLine (n : List Char) : List Char :=
  "Fixed: ".toList ++ n

/-- The final summary line (source line 36). -/
def doneLine : List Char :=
  "\nDone! All basic PostgreSQL fixes applied.".toList

/-- The observable actions processing one candidate produces on a given
directory state (used to state what the loop's trace is). -/
def fileEvents (dir : List Entry) (n : List Char) : List Event :=
  match findEntry dir n with
  | none => []
  | some e =>
    if fix_content e.content = e.content then [Event.read n]
    else [Event.read n, Event.write n (fix_content e.content), Event.print (fixedLine n)]

/-- The per-file loop (source lines 10-33): read each candidate, transform,
write back and report only when the text changed.  The first I/O failure
aborts the loop (the script has no try/except); the directory state and
output produced so far are kept, together with the error. -/
def processNames (dir : List Entry) : List (List Char) → List Entry × List Event × Option IOError
  | [] => (dir, [], none)
  | n :: rest =>
    match readFile dir n with
    | Except.error err => (dir, [], some err)
    | Except.ok content =>
      if fix_content content = content then
        let r := processNames dir rest
        (r.1, Event.read n :: r.2.1, r.2.2)
      else
        match writeFile dir n (fix_content content) with
        | Except.error err => (dir, [Event.read n], some err)
        | Except.ok dir2 =>
          let r := processNames dir2 rest
          (r.1, Event.read n :: Event.write n (fix_content content) ::
            Event.print (fixedLine n) :: r.2.1, r.2.2)

/-- The whole script run: list candidates, process them, and print the
summary line — the latter only when no exception aborted the loop. -/
def run (dir : List Entry) : List Entry × List Event × Option IOError :=
  let r := processNames dir (cs_files dir)
  match r.2.2 with
  | none => (r.1, r.2.1 ++ [Event.print doneLine], none)
  | some err => (r.1, r.2.1, some err)

/-- A well-behaved directory: distinct entry names (a filesystem guarantees
this), and every entry is a readable, writable plain file. -/
def goodDir (dir : List Entry) : Prop :=
  (dir.map Entry.name).Nodup ∧ ∀ e ∈ dir, e.isDir = false ∧ e.readOk = true ∧ e.writeOk = true

instance (dir : List Entry) : Decidable (goodDir dir) := by
  unfold goodDir
  infer_instance

/-- Concrete fixture: the spec's example file `A.cs`. -/
def entryA : Entry :=
  ⟨"A.cs".toList, false, true, true,
    "col.HasColumnType(\"datetime\").HasDefaultValueSql(\"GETUTCDATE()\")".toList⟩

/-- Concrete fixture: the spec's example file `B.cs`, matching no rule. -/
def entryB : Entry :=
  ⟨"B.cs".toList, false, true, true, "col.HasColumnType(\"int\")".toList⟩

/-- Concrete fixture: an entry whose name does not end in `.cs`. -/
def entryNote : Entry :=
  ⟨"README.md".toList, false, true, true, "GETUTCDATE()".toList⟩

/-- Concrete fixture: a subdirectory whose name ends in `.cs`. -/
def entrySub : Entry :=
  ⟨"Sub.cs".toList, true, true, true, []⟩

/-- Concrete fixture: a candidate file the environment cannot read. -/
def entryBad : Entry :=
  ⟨"C.cs".toList, false, false, true, "GETUTCDATE()".toList⟩

/-- Concrete fixture: one `GETUTCDATE()` occurrence followed by text that
rule 2 rewrites. -/
def c6ex : List Char :=
  "GETUTCDATE()HasColumnType(\"datetime\")".toList

theorem replaceAux_nil (pat rep : List Char) (fuel : Nat) :
    replaceAux pat rep fuel [] = [] := by
  cases fuel <;> rfl

theorem pat_length_pos {pat : List Char} (h : pat ≠ []) : 0 < pat.length :=
  List.length_pos.mpr h

/-- The worker's result does not depend on the fuel, as long as the fuel is
at least the length of the text. -/
theorem replaceAux_congr {pat rep : List Char} (hpat : pat ≠ []) :
    ∀ f₁ f₂ s, s.length ≤ f₁ → s.length ≤ f₂ →
      replaceAux pat rep f₁ s = replaceAux pat rep f₂ s := by
  intro f₁
  induction f₁ with
  | zero =>
    intro f₂ s hs₁ _
    have : s = [] := List.length_eq_zero.mp (Nat.le_zero.mp hs₁)
    subst this
    rw [replaceAux_nil, replaceAux_nil]
  | succ f₁ ih =>
    intro f₂ s hs₁ hs₂
    cases s with
    | nil => rw [replaceAux_nil, replaceAux_nil]
    | cons c t =>
      cases f₂ with
      | zero => exact absurd hs₂ (Nat.not_succ_le_zero _)
      | succ f₂ =>
        simp only [replaceAux]
        cases h : pat.isPrefixOf (c :: t) with
        | true =>
          simp only [if_true]
          have hd : ((c :: t).drop pat.length).length ≤ t.length := by
            simp only [List.length_drop, List.length_cons]
            have := pat_length_pos hpat
            omega
          have h₁ : ((c :: t).drop pat.length).length ≤ f₁ := by
            have : t.length ≤ f₁ := Nat.le_of_succ_le_succ hs₁
            omega
          have h₂ : ((c :: t).drop pat.length).length ≤ f₂ := by
            have : t.length ≤ f₂ := Nat.le_of_succ_le_succ hs₂
            omega
          rw [ih f₂ _ h₁ h₂]
        | false =>
          simp only [Bool.false_eq_true, if_false]
          rw [ih f₂ t (Nat.le_of_succ_le_succ hs₁) (Nat.le_of_succ_le_succ hs₂)]

theorem replace_nil (pat rep : List Char) : replace [] pat rep = [] := by
  unfold replace
  by_cases h : pat = [] <;> simp [h, replaceAux_nil]

/-- Scan equation at a match: when the text starts with the pattern, the
replacement is emitted and the scan resumes after the matched pattern. -/
theorem replace_matched {pat : List Char} (hpat : pat ≠ []) (rep t : List Char) :
    replace (pat ++ t) pat rep = rep ++ replace t pat rep := by
  unfold replace
  simp only [hpat, if_false]
  cases hl : (pat ++ t).length with
  | zero =>
    exfalso
    have := pat_length_pos hpat
    rw [List.length_append] at hl
    omega
  | succ n =>
    cases hp : pat ++ t with
    | nil =>
      exfalso
      have := pat_length_pos hpat
      have : pat = [] := by
        cases pat with
        | nil => rfl
        | cons a b => simp at hp
      exact hpat this
    | cons c u =>
      rw [← hp]
      have hpre : pat.isPrefixOf (pat ++ t) = true :=
        List.isPrefixOf_iff_prefix.mpr (List.prefix_append pat t)
      have : replaceAux pat rep (n + 1) (pat ++ t) =
          rep ++ replaceAux pat rep n ((pat ++ t).drop pat.length) := by
        rw [hp]
        simp only [replaceAux]
        rw [hp] at hpre
        simp only [hpre, if_true]
      rw [this, List.drop_left]
      congr 1
      apply replaceAux_congr hpat
      · have : (pat ++ t).length = pat.length + t.length := List.length_append pat t
        have hpos := pat_length_pos hpat
        omega
      · exact Nat.le_refl _

/-- Scan equation at a non-match: the head character is emitted unchanged. -/
theorem replace_cons {pat : List Char} (rep : List Char) (c : Char) (t : List Char)
    (h : ¬ pat <+: c :: t) :
    replace (c :: t) pat rep = c :: replace t pat rep := by
  have hpat : pat ≠ [] := by
    intro he
    subst he
    exact h ⟨c :: t, rfl⟩
  unfold replace
  simp only [hpat, if_false]
  simp only [List.length_cons, replaceAux]
  cases hb : pat.isPrefixOf (c :: t) with
  | true => exact absurd (List.isPrefixOf_iff_prefix.mp hb) h
  | false =>
    simp only [Bool.false_eq_true, if_false]

theorem inf_of_pref {l₁ l₂ : List Char} (h : l₁ <+: l₂) : l₁ <:+: l₂ := by
  obtain ⟨t, rfl⟩ := h
  exact ⟨[], t, rfl⟩

theorem inf_of_suff {l₁ l₂ : List Char} (h : l₁ <:+ l₂) : l₁ <:+: l₂ := by
  obtain ⟨t, rfl⟩ := h
  exact ⟨t, [], by simp⟩

theorem pref_append_cases {u v w : List Char} (h : u <+: v ++ w) :
    u <+: v ∨ ∃ x, u = v ++ x ∧ x <+: w := by
  obtain ⟨t, ht⟩ := h
  rcases List.append_eq_append_iff.mp ht with ⟨a, ha₁, _⟩ | ⟨a, ha₁, ha₂⟩
  · exact Or.inl ⟨a, ha₁.symm⟩
  · exact Or.inr ⟨a, ha₁, ⟨t, ha₂.symm⟩⟩

/-- Text containing no occurrence of the pattern is returned unchanged. -/
theorem replace_no_occ_id_aux (pat rep : List Char) :
    ∀ n s, s.length ≤ n → ¬ pat <:+: s → replace s pat rep = s := by
  intro n
  induction n with
  | zero =>
    intro s hs _
    have : s = [] := List.length_eq_zero.mp (Nat.le_zero.mp hs)
    subst this
    exact replace_nil pat rep
  | succ n ih =>
    intro s hs hni
    cases s with
    | nil => exact replace_nil pat rep
    | cons c t =>
      have hnp : ¬ pat <+: c :: t := fun h => hni (inf_of_pref h)
      rw [replace_cons rep c t hnp]
      rw [ih t (Nat.le_of_succ_le_succ hs) (fun h => hni (List.infix_cons h))]

theorem replace_no_occ_id {pat : List Char} (rep s : List Char)
    (h : ¬ pat <:+: s) : replace s pat rep = s :=
  replace_no_occ_id_aux pat rep s.length s (Nat.le_refl _) h

/-- Structure of a prefix of the scan's output: it is either a prefix of
the untouched input, or clean input text up to a match followed by (part
of) the replacement. -/
theorem pref_replace_aux (pat rep : List Char) (hpat : pat ≠ []) (hrep : rep ≠ []) :
    ∀ n s u, s.length ≤ n → u <+: replace s pat rep →
      u <+: s ∨ ∃ d e, u = d ++ e ∧ d ++ pat <+: s ∧ e ≠ [] ∧ (e <+: rep ∨ rep <+: e) := by
  intro n
  induction n with
  | zero =>
    intro s u hs hu
    have : s = [] := List.length_eq_zero.mp (Nat.le_zero.mp hs)
    subst this
    rw [replace_nil] at hu
    exact Or.inl hu
  | succ n ih =>
    intro s u hs hu
    cases s with
    | nil =>
      rw [replace_nil] at hu
      exact Or.inl hu
    | cons c t =>
      by_cases hpp : pat <+: c :: t
      · obtain ⟨t₂, ht₂⟩ := hpp
        rw [← ht₂, replace_matched hpat] at hu
        rcases pref_append_cases hu with hur | ⟨x, hx₁, _⟩
        · by_cases hunil : u = []
          · exact Or.inl (hunil ▸ ⟨c :: t, rfl⟩)
          · exact Or.inr ⟨[], u, rfl, by simpa using ⟨t₂, ht₂⟩, hunil, Or.inl hur⟩
        · refine Or.inr ⟨[], u, rfl, by simpa using ⟨t₂, ht₂⟩, ?_, Or.inr ⟨x, hx₁.symm⟩⟩
          rw [hx₁]
          intro hcon
          exact hrep (List.append_eq_nil.mp hcon).1
      · rw [replace_cons rep c t hpp] at hu
        cases u with
        | nil => exact Or.inl ⟨c :: t, rfl⟩
        | cons c' u' =>
          obtain ⟨w, hw⟩ := hu
          rw [List.cons_append] at hw
          injection hw with hc hw'
          subst hc
          rcases ih t u' (Nat.le_of_succ_le_succ hs) ⟨w, hw'⟩ with h | ⟨d, e, hde, hdp, hne, hor⟩
          · obtain ⟨w', hw'⟩ := h
            exact Or.inl ⟨w', by rw [List.cons_append, hw']⟩
          · obtain ⟨w', hw'⟩ := hdp
            exact Or.inr ⟨c' :: d, e, by rw [List.cons_append, hde], ⟨w', by simp [hw']⟩, hne, hor⟩

/-- Core lemma.  If every occurrence of `q` in `s` starts exactly at an
occurrence of `pat` (true both when `q = pat` and, vacuously, when `q` does
not occur in `s`), and `rep` can neither contain `q`, continue into `q`
(no nonempty suffix of `rep` starts `q`, no nonempty prefix of `rep` ends
`q`), nor sit inside `q`, then `q` does not occur in the scan's output. -/
theorem not_infix_replace_aux (pat rep q : List Char) (hpat : pat ≠ []) (hrep : rep ≠ [])
    (hq : q ≠ [])
    (h1 : ¬ q <:+: rep)
    (h2 : ∀ t, t <:+ rep → t ≠ [] → ¬ t <+: q)
    (h3 : ∀ t, t <+: rep → t ≠ [] → ¬ t <:+ q)
    (h4 : ¬ rep <:+: q) :
    ∀ n s, s.length ≤ n → (∀ a b, s = a ++ q ++ b → pat <+: q ++ b) →
      ¬ q <:+: replace s pat rep := by
  intro n
  induction n with
  | zero =>
    intro s hs _ hinf
    have : s = [] := List.length_eq_zero.mp (Nat.le_zero.mp hs)
    subst this
    rw [replace_nil] at hinf
    obtain ⟨x, y, hxy⟩ := hinf
    have := List.append_eq_nil.mp hxy
    exact hq (List.append_eq_nil.mp this.1).2
  | succ n ih =>
    intro s hs hocc hinf
    cases s with
    | nil =>
      rw [replace_nil] at hinf
      obtain ⟨x, y, hxy⟩ := hinf
      have := List.append_eq_nil.mp hxy
      exact hq (List.append_eq_nil.mp this.1).2
    | cons c t =>
      by_cases hpp : pat <+: c :: t
      · obtain ⟨t₂, ht₂⟩ := hpp
        have hlen : t₂.length ≤ n := by
          have h₁ : (pat ++ t₂).length = pat.length + t₂.length := List.length_append pat t₂
          have h₂ : (c :: t).length ≤ n + 1 := hs
          rw [← ht₂] at h₂
          have := pat_length_pos hpat
          omega
        have hocc₂ : ∀ a b, t₂ = a ++ q ++ b → pat <+: q ++ b := by
          intro a b hab
          apply hocc (pat ++ a) b
          rw [← ht₂, hab]
          simp [List.append_assoc]
        have hR : ¬ q <:+: replace t₂ pat rep := ih t₂ hlen hocc₂
        rw [← ht₂, replace_matched hpat] at hinf
        obtain ⟨x, y, hxy⟩ := hinf
        rcases List.append_eq_append_iff.mp hxy with ⟨w, hw₁, _⟩ | ⟨w, hw₁, hw₂⟩
        · exact h1 ⟨x, w, hw₁.symm⟩
        · rcases List.append_eq_append_iff.mp hw₁ with ⟨v, hv₁, hv₂⟩ | ⟨v, hv₁, hv₂⟩
          · by_cases hv : v = []
            · subst hv
              have hqw : q = w := by simpa using hv₂
              exact hR ⟨[], y, by rw [List.nil_append, hqw, ← hw₂]⟩
            · exact h2 v ⟨x, hv₁.symm⟩ hv ⟨w, hv₂.symm⟩
          · exact hR ⟨v, y, by rw [hw₂, hv₂]⟩
      · rw [replace_cons rep c t hpp] at hinf
        rcases List.infix_cons_iff.mp hinf with hpre | htail
        · rw [← replace_cons rep c t hpp] at hpre
          rcases pref_replace_aux pat rep hpat hrep (n + 1) (c :: t) q hs hpre
            with hqs | ⟨d, e, hde, hdp, hne, hor⟩
          · obtain ⟨w, hw⟩ := hqs
            exact hpp (hw ▸ hocc [] w (by simpa using hw.symm))
          · rcases hor with her | ⟨f, hf⟩
            · exact h3 e her hne ⟨d, hde.symm⟩
            · exact h4 ⟨d, f, by rw [List.append_assoc, hf, ← hde]⟩
        · exact ih t (Nat.le_of_succ_le_succ hs)
            (fun a b hab => hocc (c :: a) b (by rw [hab]; simp)) htail

theorem not_infix_replace_of_safe {pat rep q : List Char} (hsafe : safePair pat rep q)
    (s : List Char) (hocc : ∀ a b, s = a ++ q ++ b → pat <+: q ++ b) :
    ¬ q <:+: replace s pat rep := by
  obtain ⟨hpat, hrep, hq, h1, h2, h3, h4⟩ := hsafe
  exact not_infix_replace_aux pat rep q hpat hrep hq h1
    (fun t ht => h2 t ((List.mem_tails t rep).mpr ht))
    (fun t ht => h3 t ((List.mem_inits t rep).mpr ht)) h4 s.length s (Nat.le_refl _) hocc

/-- After `replace s pat rep`, the pattern `pat` itself no longer occurs. -/
theorem replace_self_free {pat rep : List Char} (hsafe : safePair pat rep pat)
    (s : List Char) : ¬ pat <:+: replace s pat rep :=
  not_infix_replace_of_safe hsafe s (fun _ b _ => List.prefix_append pat b)

/-- A replacement cannot create an occurrence of an unrelated safe `q`. -/
theorem replace_preserves_free {pat rep q : List Char} (hsafe : safePair pat rep q)
    (s : List Char) (hfree : ¬ q <:+: s) : ¬ q <:+: replace s pat rep :=
  not_infix_replace_of_safe hsafe s (fun a b hab => absurd ⟨a, b, hab.symm⟩ hfree)

theorem safe11 : safePair pat1 rep1 pat1 := by decide

theorem safe22 : safePair pat2 rep2 pat2 := by decide

theorem safe33 : safePair pat3 rep3 pat3 := by decide

theorem safe44 : safePair pat4 rep4 pat4 := by decide

theorem safe21 : safePair pat2 rep2 pat1 := by decide

theorem safe31 : safePair pat3 rep3 pat1 := by decide

theorem safe32 : safePair pat3 rep3 pat2 := by decide

theorem safe41 : safePair pat4 rep4 pat1 := by decide

theorem safe42 : safePair pat4 rep4 pat2 := by decide

theorem safe43 : safePair pat4 rep4 pat3 := by decide

/-- After the full transform, none of the four patterns occurs in the
result: each rule removes its own pattern, and no later rule's replacement
can recreate an earlier pattern. -/
theorem fix_content_free (s : List Char) :
    ¬ pat1 <:+: fix_content s ∧ ¬ pat2 <:+: fix_content s ∧
      ¬ pat3 <:+: fix_content s ∧ ¬ pat4 <:+: fix_content s := by
  have e1 : ¬ pat1 <:+: replace s pat1 rep1 := replace_self_free safe11 s
  have e2 : ¬ pat2 <:+: replace (replace s pat1 rep1) pat2 rep2 :=
    replace_self_free safe22 _
  have e21 : ¬ pat1 <:+: replace (replace s pat1 rep1) pat2 rep2 :=
    replace_preserves_free safe21 _ e1
  have e3 : ¬ pat3 <:+: replace (replace (replace s pat1 rep1) pat2 rep2) pat3 rep3 :=
    replace_self_free safe33 _
  have e31 : ¬ pat1 <:+: replace (replace (replace s pat1 rep1) pat2 rep2) pat3 rep3 :=
    replace_preserves_free safe31 _ e21
  have e32 : ¬ pat2 <:+: replace (replace (replace s pat1 rep1) pat2 rep2) pat3 rep3 :=
    replace_preserves_free safe32 _ e2
  refine ⟨replace_preserves_free safe41 _ e31, replace_preserves_free safe42 _ e32,
    replace_preserves_free safe43 _ e3, replace_self_free safe44 _⟩

/-- The transform is idempotent: a second application finds none of the
patterns and changes nothing. -/
theorem fix_content_idem (s : List Char) : fix_content (fix_content s) = fix_content s := by
  obtain ⟨f1, f2, f3, f4⟩ := fix_content_free s
  have h1 : replace (fix_content s) pat1 rep1 = fix_content s :=
    replace_no_occ_id rep1 _ f1
  have h2 : replace (fix_content s) pat2 rep2 = fix_content s :=
    replace_no_occ_id rep2 _ f2
  have h3 : replace (fix_content s) pat3 rep3 = fix_content s :=
    replace_no_occ_id rep3 _ f3
  have h4 : replace (fix_content s) pat4 rep4 = fix_content s :=
    replace_no_occ_id rep4 _ f4
  calc fix_content (fix_content s)
      = replace (replace (replace (replace (fix_content s) pat1 rep1)
          pat2 rep2) pat3 rep3) pat4 rep4 := rfl
    _ = fix_content s := by rw [h1, h2, h3, h4]

theorem flatMap_congr {l : List (List Char)} {f g : List Char → List Event}
    (h : ∀ a ∈ l, f a = g a) : l.flatMap f = l.flatMap g := by
  induction l with
  | nil => rfl
  | cons a t ih =>
    simp only [List.flatMap_cons]
    rw [h a (List.mem_cons_self a t), ih (fun b hb => h b (List.mem_cons_of_mem a hb))]

theorem updEntry_name (n c : List Char) (e : Entry) : (updEntry n c e).name = e.name := by
  unfold updEntry
  split <;> rfl

theorem updEntry_of_ne {n : List Char} (c : List Char) {e : Entry} (h : e.name ≠ n) :
    updEntry n c e = e := by
  simp [updEntry, h]

theorem updEntry_of_eq {n : List Char} (c : List Char) {e : Entry} (h : e.name = n) :
    updEntry n c e = { e with content := c } := by
  simp [updEntry, h]

theorem findEntry_eq_some {dir : List Entry} {n : List Char} {e : Entry}
    (h : findEntry dir n = some e) : e ∈ dir ∧ e.name = n := by
  refine ⟨List.mem_of_find?_eq_some h, ?_⟩
  have := List.find?_some h
  simpa using this

theorem findEntry_map_upd (dir : List Entry) (n c m : List Char) :
    findEntry (dir.map (updEntry n c)) m = (findEntry dir m).map (updEntry n c) := by
  induction dir with
  | nil => rfl
  | cons e t ih =>
    simp only [findEntry, List.map_cons, List.find?]
    rw [updEntry_name]
    cases h : e.name == m with
    | true => simp [h]
    | false =>
      simp only [h]
      exact ih

theorem map_name_upd (dir : List Entry) (n c : List Char) :
    (dir.map (updEntry n c)).map Entry.name = dir.map Entry.name := by
  rw [List.map_map]
  exact List.map_congr_left (fun e _ => updEntry_name n c e)

theorem name_inj {dir : List Entry} (hnd : (dir.map Entry.name).Nodup) {e f : Entry}
    (he : e ∈ dir) (hf : f ∈ dir) (h : e.name = f.name) : e = f :=
  List.inj_on_of_nodup_map hnd he hf h

theorem goodDir_find {dir : List Entry} (hg : goodDir dir) {n : List Char}
    (hn : n ∈ cs_files dir) :
    ∃ e, findEntry dir n = some e ∧ e.isDir = false ∧ e.readOk = true ∧ e.writeOk = true := by
  obtain ⟨e, he, hen⟩ : ∃ e ∈ dir, e.name = n := by
    obtain ⟨e, hmem, hname⟩ := List.mem_map.mp hn
    exact ⟨e, (List.mem_filter.mp hmem).1, hname⟩
  have hs : (dir.find? (fun x => x.name == n)).isSome :=
    List.find?_isSome.mpr ⟨e, he, by simp [hen]⟩
  obtain ⟨e', he'⟩ := Option.isSome_iff_exists.mp hs
  have hfacts := findEntry_eq_some (show findEntry dir n = some e' from he')
  obtain ⟨hd, hr, hw⟩ := hg.2 e' hfacts.1
  exact ⟨e', he', hd, hr, hw⟩

theorem cs_files_nodup {dir : List Entry} (hnd : (dir.map Entry.name).Nodup) :
    (cs_files dir).Nodup :=
  hnd.sublist ((List.filter_sublist dir).map Entry.name)

theorem mem_cs_files {dir : List Entry} (hnd : (dir.map Entry.name).Nodup) {e : Entry}
    (he : e ∈ dir) : e.name ∈ cs_files dir ↔ csSuffix e.name = true := by
  constructor
  · intro h
    obtain ⟨f, hf, hfn⟩ := List.mem_map.mp h
    obtain ⟨hfmem, hfp⟩ := List.mem_filter.mp hf
    have : f = e := name_inj hnd hfmem he hfn
    subst this
    exact hfp
  · intro h
    exact List.mem_map.mpr ⟨e, List.mem_filter.mpr ⟨he, h⟩, rfl⟩

/-- Central correctness of the loop on an error-free directory: the final
state replaces each processed file's content by its transform and touches
nothing else, the trace is the concatenation of each file's events, and no
error occurs.  Processing order enters only through the trace. -/
theorem processNames_good :
    ∀ (names : List (List Char)) (dir : List Entry),
      (dir.map Entry.name).Nodup → names.Nodup →
      (∀ n ∈ names, ∃ e, findEntry dir n = some e ∧
        e.isDir = false ∧ e.readOk = true ∧ e.writeOk = true) →
      processNames dir names =
        (dir.map (fun e => if e.name ∈ names then { e with content := fix_content e.content } else e),
         names.flatMap (fileEvents dir), none) := by
  intro names
  induction names with
  | nil =>
    intro dir _ _ _
    have hmap : dir.map (fun e =>
        if e.name ∈ ([] : List (List Char)) then { e with content := fix_content e.content } else e)
        = dir := by
      have : ∀ e ∈ dir, (if e.name ∈ ([] : List (List Char)) then
          { e with content := fix_content e.content } else e) = id e := by
        intro e _
        simp
      rw [List.map_congr_left this, List.map_id]
    rw [hmap]
    rfl
  | cons n rest ih =>
    intro dir hnd hnods hgood
    obtain ⟨hnotin, hrestnd⟩ := List.nodup_cons.mp hnods
    obtain ⟨e₀, hfind, hd0, hr0, hw0⟩ := hgood n (List.mem_cons_self n rest)
    obtain ⟨he₀mem, he₀name⟩ := findEntry_eq_some hfind
    have hread : readFile dir n = Except.ok e₀.content := by
      unfold readFile
      rw [hfind]
      simp [hd0, hr0]
    have hfe : fileEvents dir n = if fix_content e₀.content = e₀.content then [Event.read n]
        else [Event.read n, Event.write n (fix_content e₀.content), Event.print (fixedLine n)] := by
      unfold fileEvents
      rw [hfind]
    by_cases hch : fix_content e₀.content = e₀.content
    · have hrec := ih dir hnd hrestnd (fun m hm => hgood m (List.mem_cons_of_mem n hm))
      have hstate : dir.map (fun e =>
            if e.name ∈ rest then { e with content := fix_content e.content } else e)
          = dir.map (fun e =>
            if e.name ∈ n :: rest then { e with content := fix_content e.content } else e) := by
        apply List.map_congr_left
        intro e he
        by_cases hen : e.name = n
        · have heq : e = e₀ := name_inj hnd he he₀mem (by rw [hen, he₀name])
          subst heq
          rw [if_neg (fun hmem => hnotin (hen ▸ hmem)),
            if_pos (by rw [hen]; exact List.mem_cons_self n rest), hch]
        · by_cases hmr : e.name ∈ rest
          · rw [if_pos hmr, if_pos (List.mem_cons_of_mem n hmr)]
          · rw [if_neg hmr, if_neg (by simp [List.mem_cons, hen, hmr])]
      simp only [processNames, hread, if_pos hch, List.flatMap_cons]
      rw [hrec, hfe, if_pos hch, hstate]
      rfl
    · have hwf : writeFile dir n (fix_content e₀.content)
          = Except.ok (dir.map (updEntry n (fix_content e₀.content))) := by
        unfold writeFile
        rw [hfind]
        simp [hw0]
      set nc := fix_content e₀.content with hnc
      set dir2 := dir.map (updEntry n nc) with hdir2
      have hnd2 : (dir2.map Entry.name).Nodup := by
        rw [hdir2, map_name_upd]
        exact hnd
      have hgood2 : ∀ m ∈ rest, ∃ e, findEntry dir2 m = some e ∧
          e.isDir = false ∧ e.readOk = true ∧ e.writeOk = true := by
        intro m hm
        obtain ⟨em, hfm, hdm, hrm, hwm⟩ := hgood m (List.mem_cons_of_mem n hm)
        have hmn : em.name ≠ n := by
          rw [(findEntry_eq_some hfm).2]
          exact fun h => hnotin (h ▸ hm)
        refine ⟨em, ?_, hdm, hrm, hwm⟩
        rw [hdir2, findEntry_map_upd, hfm]
        simp [updEntry_of_ne nc hmn]
      have hrec := ih dir2 hnd2 hrestnd hgood2
      have hstate : dir2.map (fun e =>
            if e.name ∈ rest then { e with content := fix_content e.content } else e)
          = dir.map (fun e =>
            if e.name ∈ n :: rest then { e with content := fix_content e.content } else e) := by
        rw [hdir2, List.map_map]
        apply List.map_congr_left
        intro e he
        simp only [Function.comp]
        by_cases hen : e.name = n
        · have heq : e = e₀ := name_inj hnd he he₀mem (by rw [hen, he₀name])
          subst heq
          rw [updEntry_of_eq nc hen]
          rw [if_neg (fun hmem => hnotin (hen ▸ hmem)),
            if_pos (by rw [hen]; exact List.mem_cons_self n rest)]
        · rw [updEntry_of_ne nc hen]
          by_cases hmr : e.name ∈ rest
          · rw [if_pos hmr, if_pos (List.mem_cons_of_mem n hmr)]
          · rw [if_neg hmr, if_neg (by simp [List.mem_cons, hen, hmr])]
      have hflat : rest.flatMap (fileEvents dir2) = rest.flatMap (fileEvents dir) := by
        apply flatMap_congr
        intro m hm
        have hmn : m ≠ n := fun h => hnotin (h ▸ hm)
        unfold fileEvents
        rw [hdir2, findEntry_map_upd]
        cases hfm : findEntry dir m with
        | none => rfl
        | some em =>
          have : em.name ≠ n := by
            rw [(findEntry_eq_some hfm).2]
            exact hmn
          simp [updEntry_of_ne nc this]
      simp only [processNames, hread, if_neg hch, hwf, List.flatMap_cons]
      rw [hrec, hflat, hfe, if_neg hch, hstate]
      rfl

/-- `run` on an error-free directory: every candidate's final content is
the transform of its original content, other entries are untouched, the
trace is the per-file traces followed by the summary line, and no error
occurs. -/
theorem run_good (dir : List Entry) (hg : goodDir dir) :
    run dir = (dir.map (fun e =>
        if csSuffix e.name = true then { e with content := fix_content e.content } else e),
      (cs_files dir).flatMap (fileEvents dir) ++ [Event.print doneLine], none) := by
  have hchar := processNames_good (cs_files dir) dir hg.1 (cs_files_nodup hg.1)
    (fun n hn => goodDir_find hg hn)
  have hstate : dir.map (fun e =>
        if e.name ∈ cs_files dir then { e with content := fix_content e.content } else e)
      = dir.map (fun e =>
        if csSuffix e.name = true then { e with content := fix_content e.content } else e) := by
    apply List.map_congr_left
    intro e he
    by_cases h : csSuffix e.name = true
    · rw [if_pos ((mem_cs_files hg.1 he).mpr h), if_pos h]
    · rw [if_neg (fun hm => h ((mem_cs_files hg.1 he).mp hm)), if_neg h]
  rw [hstate] at hchar
  unfold run
  rw [hchar]

theorem fixedLine_inj {a b : List Char} (h : fixedLine a = fixedLine b) : a = b :=
  List.append_cancel_left h

theorem fileEvents_eq_some {dir : List Entry} {m : List Char} {e : Entry}
    (h : findEntry dir m = some e) :
    fileEvents dir m = if fix_content e.content = e.content then [Event.read m]
      else [Event.read m, Event.write m (fix_content e.content), Event.print (fixedLine m)] := by
  unfold fileEvents
  rw [h]

theorem fileEvents_eq_none {dir : List Entry} {m : List Char}
    (h : findEntry dir m = none) : fileEvents dir m = [] := by
  unfold fileEvents
  rw [h]

theorem fixedLine_ne_done (n : List Char) : fixedLine n ≠ doneLine := by
  intro h
  simp [fixedLine, doneLine] at h

theorem done_not_in_fileEvents (dir : List Entry) (m : List Char) :
    Event.print doneLine ∉ fileEvents dir m := by
  cases hf : findEntry dir m with
  | none =>
    rw [fileEvents_eq_none hf]
    simp
  | some e =>
    rw [fileEvents_eq_some hf]
    by_cases h : fix_content e.content = e.content
    · rw [if_pos h]
      simp
    · rw [if_neg h]
      intro hmem
      simp only [List.mem_cons, List.not_mem_nil, or_false] at hmem
      rcases hmem with h' | h' | h'
      · exact Event.noConfusion h'
      · exact Event.noConfusion h'
      · exact (fixedLine_ne_done m) (Event.print.inj h').symm

/-- The run preserves every entry's name and flags. -/
theorem goodDir_run (dir : List Entry) (hg : goodDir dir) : goodDir (run dir).1 := by
  rw [run_good dir hg]
  constructor
  · have : (dir.map (fun e =>
        if csSuffix e.name = true then { e with content := fix_content e.content } else e)).map
        Entry.name = dir.map Entry.name := by
      rw [List.map_map]
      apply List.map_congr_left
      intro e _
      by_cases h : csSuffix e.name = true
      · simp [Function.comp, h]
      · simp [Function.comp, h]
    rw [this]
    exact hg.1
  · intro e he
    obtain ⟨e₀, he₀, heq⟩ := List.mem_map.mp he
    obtain ⟨hd, hr, hw⟩ := hg.2 e₀ he₀
    by_cases h : csSuffix e₀.name = true
    · rw [if_pos h] at heq
      rw [← heq]
      exact ⟨hd, hr, hw⟩
    · rw [if_neg h] at heq
      rw [← heq]
      exact ⟨hd, hr, hw⟩

/-- Every candidate entry in the state after a run has transform-fixed
content. -/
theorem run_state_content_fixed (dir : List Entry) (hg : goodDir dir) {e : Entry}
    (he : e ∈ (run dir).1) (hcs : csSuffix e.name = true) :
    fix_content e.content = e.content := by
  rw [run_good dir hg] at he
  obtain ⟨e₀, he₀, heq⟩ := List.mem_map.mp he
  by_cases h : csSuffix e₀.name = true
  · rw [if_pos h] at heq
    rw [← heq]
    exact fix_content_idem e₀.content
  · rw [if_neg h] at heq
    subst heq
    exact absurd hcs (by simp [h])

/-- A second run changes no entry and emits no write and no `Fixed:` line. -/
theorem second_run_no_fix (dir : List Entry) (hg : goodDir dir) :
    (run (run dir).1).1 = (run dir).1 ∧
    (∀ n c, Event.write n c ∉ (run (run dir).1).2.1) ∧
    (∀ n, Event.print (fixedLine n) ∉ (run (run dir).1).2.1) := by
  have hg' := goodDir_run dir hg
  have hfixed : ∀ m em, findEntry (run dir).1 m = some em → m ∈ cs_files (run dir).1 →
      fix_content em.content = em.content := by
    intro m em hfm hm
    have hem := findEntry_eq_some hfm
    have hcsm : csSuffix em.name = true := by
      obtain ⟨f, hf, hfn⟩ := List.mem_map.mp hm
      obtain ⟨_, hfp⟩ := List.mem_filter.mp hf
      rw [hem.2, ← hfn]
      exact hfp
    exact run_state_content_fixed dir hg hem.1 hcsm
  refine ⟨?_, ?_, ?_⟩
  · have h2 := run_good (run dir).1 hg'
    rw [h2]
    have : (run dir).1.map (fun e =>
        if csSuffix e.name = true then { e with content := fix_content e.content } else e)
        = (run dir).1.map id := by
      apply List.map_congr_left
      intro e he
      by_cases h : csSuffix e.name = true
      · rw [if_pos h, run_state_content_fixed dir hg he h]
        rfl
      · rw [if_neg h]
        rfl
    rw [this, List.map_id]
  · intro n c hmem
    rw [run_good (run dir).1 hg'] at hmem
    rcases List.mem_append.mp hmem with h | h
    · obtain ⟨m, hm, hx⟩ := List.mem_flatMap.mp h
      cases hfm : findEntry (run dir).1 m with
      | none =>
        rw [fileEvents_eq_none hfm] at hx
        exact absurd hx (List.not_mem_nil _)
      | some em =>
        rw [fileEvents_eq_some hfm, if_pos (hfixed m em hfm hm)] at hx
        simp at hx
    · simp at h
  · intro n hmem
    rw [run_good (run dir).1 hg'] at hmem
    rcases List.mem_append.mp hmem with h | h
    · obtain ⟨m, hm, hx⟩ := List.mem_flatMap.mp h
      cases hfm : findEntry (run dir).1 m with
      | none =>
        rw [fileEvents_eq_none hfm] at hx
        exact absurd hx (List.not_mem_nil _)
      | some em =>
        rw [fileEvents_eq_some hfm, if_pos (hfixed m em hfm hm)] at hx
        simp at hx
    · have : Event.print (fixedLine n) = Event.print doneLine := by simpa using h
      exact fixedLine_ne_done n (Event.print.inj this)

theorem safe12 : safePair pat1 rep1 pat2 := by decide

theorem safe13 : safePair pat1 rep1 pat3 := by decide

theorem safe14 : safePair pat1 rep1 pat4 := by decide

/-- When the occurrence count is one, any two occurrence positions agree. -/
theorem numOccs_le_one_unique {pat s : List Char} (hone : numOccs pat s = 1) {i j : Nat}
    (hi : i ≤ s.length) (hj : j ≤ s.length)
    (hpi : pat.isPrefixOf (s.drop i) = true) (hpj : pat.isPrefixOf (s.drop j) = true) :
    i = j := by
  unfold numOccs at hone
  obtain ⟨x, hx⟩ := List.length_eq_one.mp hone
  have hmi : i ∈ (List.range (s.length + 1)).filter (fun k => pat.isPrefixOf (s.drop k)) :=
    List.mem_filter.mpr ⟨List.mem_range.mpr (by omega), hpi⟩
  have hmj : j ∈ (List.range (s.length + 1)).filter (fun k => pat.isPrefixOf (s.drop k)) :=
    List.mem_filter.mpr ⟨List.mem_range.mpr (by omega), hpj⟩
  rw [hx] at hmi hmj
  have h1 := List.mem_singleton.mp hmi
  have h2 := List.mem_singleton.mp hmj
  omega

/-- The scan replaces the occurrence at the first matching position and
continues after it. -/
theorem replace_single (pat rep : List Char) (hpat : pat ≠ []) :
    ∀ a b, (∀ i, i < a.length → pat.isPrefixOf ((a ++ (pat ++ b)).drop i) = false) →
      replace (a ++ (pat ++ b)) pat rep = a ++ (rep ++ replace b pat rep) := by
  intro a
  induction a with
  | nil =>
    intro b _
    simpa using replace_matched hpat rep b
  | cons c a' ih =>
    intro b hfirst
    have h0 : ¬ pat <+: (c :: (a' ++ (pat ++ b))) := by
      intro hp
      have htrue : pat.isPrefixOf ((c :: a') ++ (pat ++ b)) = true :=
        List.isPrefixOf_iff_prefix.mpr hp
      have hf0 := hfirst 0 (Nat.succ_pos _)
      rw [List.drop_zero] at hf0
      rw [htrue] at hf0
      exact Bool.noConfusion hf0
    have hfirst' : ∀ i, i < a'.length → pat.isPrefixOf ((a' ++ (pat ++ b)).drop i) = false := by
      intro i hi
      have := hfirst (i + 1) (by simpa using Nat.succ_lt_succ hi)
      rw [show ((c :: a') ++ (pat ++ b)) = c :: (a' ++ (pat ++ b)) from rfl,
        List.drop_succ_cons] at this
      exact this
    calc replace ((c :: a') ++ (pat ++ b)) pat rep
        = replace (c :: (a' ++ (pat ++ b))) pat rep := rfl
      _ = c :: replace (a' ++ (pat ++ b)) pat rep := replace_cons rep c _ h0
      _ = c :: (a' ++ (rep ++ replace b pat rep)) := by rw [ih b hfirst']
      _ = (c :: a') ++ (rep ++ replace b pat rep) := rfl

theorem findEntry_map_pres (f : Entry → Entry) (hf : ∀ e, (f e).name = e.name) :
    ∀ (dir : List Entry) (m : List Char),
      findEntry (dir.map f) m = (findEntry dir m).map f := by
  intro dir m
  induction dir with
  | nil => rfl
  | cons e t ih =>
    simp only [findEntry, List.map_cons, List.find?]
    rw [hf]
    cases h : e.name == m with
    | true => simp [h]
    | false =>
      simp only [h]
      exact ih

/-- Splitting the loop after an error-free prefix of the work list: the
remaining names are processed from the state the prefix produced, and the
traces concatenate. -/
theorem processNames_append :
    ∀ (l1 : List (List Char)) (dir : List Entry) (l2 : List (List Char)),
      (processNames dir l1).2.2 = none →
      processNames dir (l1 ++ l2) =
        ((processNames (processNames dir l1).1 l2).1,
         (processNames dir l1).2.1 ++ (processNames (processNames dir l1).1 l2).2.1,
         (processNames (processNames dir l1).1 l2).2.2) := by
  intro l1
  induction l1 with
  | nil =>
    intro dir l2 _
    rfl
  | cons n rest ih =>
    intro dir l2 herr
    cases hr : readFile dir n with
    | error err =>
      exfalso
      simp only [processNames, hr] at herr
      exact Option.noConfusion herr
    | ok content =>
      by_cases hch : fix_content content = content
      · have herr' : (processNames dir rest).2.2 = none := by
          simp only [processNames, hr, if_pos hch] at herr
          exact herr
        simp only [List.cons_append, processNames, hr, if_pos hch, List.append_eq]
        rw [ih dir l2 herr']
      · cases hw : writeFile dir n (fix_content content) with
        | error err =>
          exfalso
          simp only [processNames, hr, if_neg hch, hw] at herr
          exact Option.noConfusion herr
        | ok dir2 =>
          have herr' : (processNames dir2 rest).2.2 = none := by
            simp only [processNames, hr, if_neg hch, hw] at herr
            exact herr
          simp only [List.cons_append, processNames, hr, if_neg hch, hw, List.append_eq]
          rw [ih dir2 l2 herr']

theorem findEntry_self {dir : List Entry} (hnd : (dir.map Entry.name).Nodup) {e : Entry}
    (he : e ∈ dir) : findEntry dir e.name = some e := by
  have hs : (dir.find? (fun x => x.name == e.name)).isSome :=
    List.find?_isSome.mpr ⟨e, he, by simp⟩
  obtain ⟨e', he'⟩ := Option.isSome_iff_exists.mp hs
  have hf := findEntry_eq_some (show findEntry dir e.name = some e' from he')
  exact he'.trans (by rw [name_inj hnd hf.1 he hf.2])

/-- A candidate whose stored content the transform does not change causes
no write event and no `Fixed:` line anywhere in the run's trace. -/
theorem no_write_events_of_unchanged (dir : List Entry) (hg : goodDir dir) {n : List Char}
    {e : Entry} (hfe : findEntry dir n = some e) (hch : fix_content e.content = e.content) :
    (∀ c, Event.write n c ∉ (run dir).2.1) ∧ Event.print (fixedLine n) ∉ (run dir).2.1 := by
  constructor
  · intro c hmem
    rw [run_good dir hg] at hmem
    rcases List.mem_append.mp hmem with hmm | hmm
    · obtain ⟨m, _, hx⟩ := List.mem_flatMap.mp hmm
      cases hfm : findEntry dir m with
      | none =>
        rw [fileEvents_eq_none hfm] at hx
        exact absurd hx (List.not_mem_nil _)
      | some em =>
        rw [fileEvents_eq_some hfm] at hx
        by_cases hch2 : fix_content em.content = em.content
        · rw [if_pos hch2] at hx
          simp at hx
        · rw [if_neg hch2] at hx
          simp only [List.mem_cons, List.not_mem_nil, or_false] at hx
          rcases hx with hx | hx | hx
          · exact Event.noConfusion hx
          · have hnm : n = m := (Event.write.inj hx).1
            rw [← hnm] at hfm
            rw [hfm] at hfe
            rw [Option.some.inj hfe] at hch2
            exact hch2 hch
          · exact Event.noConfusion hx
    · simp at hmm
  · intro hmem
    rw [run_good dir hg] at hmem
    rcases List.mem_append.mp hmem with hmm | hmm
    · obtain ⟨m, _, hx⟩ := List.mem_flatMap.mp hmm
      cases hfm : findEntry dir m with
      | none =>
        rw [fileEvents_eq_none hfm] at hx
        exact absurd hx (List.not_mem_nil _)
      | some em =>
        rw [fileEvents_eq_some hfm] at hx
        by_cases hch2 : fix_content em.content = em.content
        · rw [if_pos hch2] at hx
          simp at hx
        · rw [if_neg hch2] at hx
          simp only [List.mem_cons, List.not_mem_nil, or_false] at hx
          rcases hx with hx | hx | hx
          · exact Event.noConfusion hx
          · exact Event.noConfusion hx
          · have hnm : n = m := fixedLine_inj (Event.print.inj hx)
            rw [← hnm] at hfm
            rw [hfm] at hfe
            rw [Option.some.inj hfe] at hch2
            exact hch2 hch
    · have : Event.print (fixedLine n) = Event.print doneLine := by simpa using hmm
      exact fixedLine_ne_done n (Event.print.inj this)

theorem count_fixed_in_fileEvents (dir : List Entry) (m n : List Char) :
    (fileEvents dir m).count (Event.print (fixedLine n))
      = if m = n ∧ ∃ e, findEntry dir m = some e ∧ fix_content e.content ≠ e.content
        then 1 else 0 := by
  cases hf : findEntry dir m with
  | none =>
    rw [fileEvents_eq_none hf, if_neg]
    · rfl
    · rintro ⟨_, e, he, _⟩
      exact Option.noConfusion he
  | some e =>
    rw [fileEvents_eq_some hf]
    by_cases hch : fix_content e.content = e.content
    · rw [if_pos hch, if_neg]
      · simp
      · rintro ⟨_, e', he', hne⟩
        rw [← Option.some.inj he'] at hne
        exact hne hch
    · rw [if_neg hch]
      by_cases hmn : m = n
      · subst hmn
        rw [if_pos ⟨rfl, e, rfl, hch⟩]
        simp
      · rw [if_neg (fun h => hmn h.1)]
        have hne : fixedLine m ≠ fixedLine n := fun h => hmn (fixedLine_inj h)
        rw [List.count_cons, List.count_cons, List.count_cons, List.count_nil]
        simp [hne]

theorem count_fixed_flatMap (dir : List Entry) (n : List Char) :
    ∀ names : List (List Char), names.Nodup →
      ((names.flatMap (fileEvents dir)).count (Event.print (fixedLine n)))
        = if n ∈ names ∧ ∃ e, findEntry dir n = some e ∧ fix_content e.content ≠ e.content
          then 1 else 0 := by
  intro names
  induction names with
  | nil =>
    intro _
    simp
  | cons m rest ih =>
    intro hnd
    obtain ⟨hnotin, hrest⟩ := List.nodup_cons.mp hnd
    rw [List.flatMap_cons, List.count_append, count_fixed_in_fileEvents dir m n, ih hrest]
    by_cases hmn : m = n
    · subst hmn
      by_cases hex : ∃ e, findEntry dir m = some e ∧ fix_content e.content ≠ e.content
      · rw [if_pos ⟨rfl, hex⟩, if_neg (fun h => hnotin h.1),
          if_pos ⟨List.mem_cons_self m rest, hex⟩]
      · rw [if_neg (fun h => hex h.2), if_neg (fun h => hex h.2), if_neg (fun h => hex h.2)]
    · rw [if_neg (fun h => hmn h.1), Nat.zero_add]
      by_cases hmem : n ∈ rest ∧ ∃ e, findEntry dir n = some e ∧ fix_content e.content ≠ e.content
      · rw [if_pos hmem, if_pos ⟨List.mem_cons_of_mem m hmem.1, hmem.2⟩]
      · rw [if_neg hmem, if_neg (fun h => hmem
          ⟨(List.mem_cons.mp h.1).resolve_left (fun hx => hmn hx.symm), h.2⟩)]

/-- C1: for every input text, the transform applied to a file equals the
left fold, in the fixed listed order, of plain literal substring
replace-all operations for the four rules, each rule scanning
left-to-right over the previous rule's output — in particular a later rule
applies to text an earlier rule produced. -/
theorem c1_transform_eq_rule_fold (text : List Char) :
    fix_content text = apply_rules text rules := rfl

/-- C2: the transform is idempotent — applying the rule sequence twice
equals applying it once — and hence a second run of the patcher over the
directory a run produced changes no file and reports no file as fixed. -/
theorem c2_idempotent :
    (∀ content, fix_content (fix_content content) = fix_content content) ∧
    (∀ dir, goodDir dir →
      (run (run dir).1).1 = (run dir).1 ∧
      (∀ n c, Event.write n c ∉ (run (run dir).1).2.1) ∧
      (∀ n, Event.print (fixedLine n) ∉ (run (run dir).1).2.1)) :=
  ⟨fix_content_idem, fun dir hg => second_run_no_fix dir hg⟩

theorem c2_idempotent_witness :
    goodDir [entryA, entryB] ∧
    ((run (run [entryA, entryB]).1).1 = (run [entryA, entryB]).1 ∧
     (∀ n c, Event.write n c ∉ (run (run [entryA, entryB]).1).2.1) ∧
     (∀ n, Event.print (fixedLine n) ∉ (run (run [entryA, entryB]).1).2.1)) :=
  ⟨by decide, c2_idempotent.2 [entryA, entryB] (by decide)⟩

/-- C3: a file whose content contains no occurrence of any of the four
rule patterns is returned unchanged by the transform, keeps its entry in
the final state, is never written, and is never reported as fixed. -/
theorem c3_pattern_free_file_untouched (dir : List Entry) (e : Entry)
    (hg : goodDir dir) (he : e ∈ dir)
    (h1 : ¬ pat1 <:+: e.content) (h2 : ¬ pat2 <:+: e.content)
    (h3 : ¬ pat3 <:+: e.content) (h4 : ¬ pat4 <:+: e.content) :
    fix_content e.content = e.content ∧ e ∈ (run dir).1 ∧
    (∀ c, Event.write e.name c ∉ (run dir).2.1) ∧
    Event.print (fixedLine e.name) ∉ (run dir).2.1 := by
  have hfix : fix_content e.content = e.content := by
    unfold fix_content
    rw [replace_no_occ_id rep1 _ h1, replace_no_occ_id rep2 _ h2,
      replace_no_occ_id rep3 _ h3, replace_no_occ_id rep4 _ h4]
  have hno := no_write_events_of_unchanged dir hg (findEntry_self hg.1 he) hfix
  refine ⟨hfix, ?_, hno.1, hno.2⟩
  rw [run_good dir hg]
  refine List.mem_map.mpr ⟨e, he, ?_⟩
  by_cases h : csSuffix e.name = true
  · rw [if_pos h, hfix]
  · rw [if_neg h]

theorem c3_pattern_free_file_untouched_witness :
    (goodDir [entryA, entryB] ∧ entryB ∈ [entryA, entryB] ∧
     ¬ pat1 <:+: entryB.content ∧ ¬ pat2 <:+: entryB.content ∧
     ¬ pat3 <:+: entryB.content ∧ ¬ pat4 <:+: entryB.content) ∧
    (fix_content entryB.content = entryB.content ∧ entryB ∈ (run [entryA, entryB]).1 ∧
     (∀ c, Event.write entryB.name c ∉ (run [entryA, entryB]).2.1) ∧
     Event.print (fixedLine entryB.name) ∉ (run [entryA, entryB]).2.1) :=
  ⟨⟨by decide, by decide, by decide, by decide, by decide, by decide⟩,
    c3_pattern_free_file_untouched [entryA, entryB] entryB (by decide) (by decide)
      (by decide) (by decide) (by decide) (by decide)⟩

/-- C4 counterexample: the claim says a subdirectory is never selected as
a candidate, but the code filters `os.listdir` output on the name alone: a
subdirectory named `Sub.cs` is selected. -/
theorem c4_counterexample_subdir_selected :
    cs_files [entrySub] = [entrySub.name] ∧ entrySub.isDir = true := by
  decide

/-- C4 amended: `list_candidates` returns exactly the names of the entries
directly inside the directory that end in `.cs`, ignoring non-matching
entries; the selection inspects only the name, so a subdirectory whose
name ends in `.cs` is selected as well. -/
theorem c4_candidates_by_name_only (dir : List Entry) (n : List Char) :
    n ∈ cs_files dir ↔ ∃ e ∈ dir, e.name = n ∧ csSuffix n = true := by
  constructor
  · intro h
    obtain ⟨e, hf, hfn⟩ := List.mem_map.mp h
    obtain ⟨hmem, hp⟩ := List.mem_filter.mp hf
    exact ⟨e, hmem, hfn, hfn ▸ hp⟩
  · rintro ⟨e, hmem, rfl, hp⟩
    exact List.mem_map.mpr ⟨e, List.mem_filter.mpr ⟨hmem, hp⟩, rfl⟩

/-- C5: matching is exact and case-sensitive — the upper-case and
lower-case column-type literals are both rewritten to `text`, while a
mixed-case variant covered by neither rule is left unchanged. -/
theorem c5_case_sensitivity :
    fix_content "col.HasColumnType(\"NVARCHAR(MAX)\");".toList
        = "col.HasColumnType(\"text\");".toList ∧
    fix_content "col.HasColumnType(\"nvarchar(max)\");".toList
        = "col.HasColumnType(\"text\");".toList ∧
    fix_content "col.HasColumnType(\"NVarchar(Max)\");".toList
        = "col.HasColumnType(\"NVarchar(Max)\");".toList := by
  refine ⟨by decide, by decide, by decide⟩

/-- C6 counterexample: `c6ex` contains exactly one occurrence of
`GETUTCDATE()`, yet the transform does not leave the remaining text
unchanged — rule 2 also rewrites it.  The claim's predicted output (only
the one occurrence replaced by `NOW()`) differs from the actual output. -/
theorem c6_counterexample_other_rules_apply :
    numOccs pat1 c6ex = 1 ∧
    c6ex = [] ++ pat1 ++ "HasColumnType(\"datetime\")".toList ∧
    fix_content c6ex ≠ [] ++ rep1 ++ "HasColumnType(\"datetime\")".toList ∧
    fix_content c6ex = "NOW()HasColumnType(\"timestamp with time zone\")".toList := by
  refine ⟨by decide, by decide, by decide, by decide⟩

/-- C6 amended: if the content contains exactly one occurrence of
`GETUTCDATE()` and none of the other three patterns, the transform
replaces that occurrence with `NOW()` and leaves all other text
unchanged. -/
theorem c6_single_occurrence_replaced (s a b : List Char)
    (hsplit : s = a ++ pat1 ++ b) (hone : numOccs pat1 s = 1)
    (h2 : ¬ pat2 <:+: s) (h3 : ¬ pat3 <:+: s) (h4 : ¬ pat4 <:+: s) :
    fix_content s = a ++ rep1 ++ b := by
  have hp1 : pat1 ≠ [] := by decide
  have hp1len : 0 < pat1.length := pat_length_pos hp1
  subst hsplit
  have hlen : (a ++ pat1 ++ b).length = a.length + pat1.length + b.length := by
    simp only [List.length_append]
  have hocc_a : pat1.isPrefixOf ((a ++ pat1 ++ b).drop a.length) = true := by
    rw [List.append_assoc, List.drop_left]
    exact List.isPrefixOf_iff_prefix.mpr (List.prefix_append pat1 b)
  have huniq : ∀ i, i ≤ (a ++ pat1 ++ b).length →
      pat1.isPrefixOf ((a ++ pat1 ++ b).drop i) = true → i = a.length := by
    intro i hi hp
    exact numOccs_le_one_unique hone hi (by omega) hp hocc_a
  have hfirst : ∀ i, i < a.length → pat1.isPrefixOf ((a ++ (pat1 ++ b)).drop i) = false := by
    intro i hi
    cases hb : pat1.isPrefixOf ((a ++ (pat1 ++ b)).drop i) with
    | false => rfl
    | true =>
      exfalso
      rw [← List.append_assoc] at hb
      have := huniq i (by omega) hb
      omega
  have hbfree : ¬ pat1 <:+: b := by
    rintro ⟨u, v, huv⟩
    have hble := congrArg List.length huv
    simp only [List.length_append] at hble
    have hshape : a ++ pat1 ++ b = ((a ++ pat1) ++ u) ++ (pat1 ++ v) := by
      rw [← huv]
      simp [List.append_assoc]
    have hdrop : pat1.isPrefixOf ((a ++ pat1 ++ b).drop ((a ++ pat1) ++ u).length) = true := by
      rw [hshape, List.drop_left]
      exact List.isPrefixOf_iff_prefix.mpr (List.prefix_append pat1 v)
    have hlen2 : ((a ++ pat1) ++ u).length = a.length + pat1.length + u.length := by
      simp only [List.length_append]
    have heq := huniq ((a ++ pat1) ++ u).length (by omega) hdrop
    rw [hlen2] at heq
    omega
  have hr1 : replace (a ++ pat1 ++ b) pat1 rep1 = a ++ rep1 ++ b := by
    rw [List.append_assoc, replace_single pat1 rep1 hp1 a b hfirst,
      replace_no_occ_id rep1 b hbfree, ← List.append_assoc]
  have k2 : ¬ pat2 <:+: replace (a ++ pat1 ++ b) pat1 rep1 := replace_preserves_free safe12 _ h2
  have k3 : ¬ pat3 <:+: replace (a ++ pat1 ++ b) pat1 rep1 := replace_preserves_free safe13 _ h3
  have k4 : ¬ pat4 <:+: replace (a ++ pat1 ++ b) pat1 rep1 := replace_preserves_free safe14 _ h4
  rw [hr1] at k2 k3 k4
  show replace (replace (replace (replace (a ++ pat1 ++ b) pat1 rep1) pat2 rep2) pat3 rep3)
      pat4 rep4 = a ++ rep1 ++ b
  rw [hr1, replace_no_occ_id rep2 _ k2, replace_no_occ_id rep3 _ k3,
    replace_no_occ_id rep4 _ k4]

theorem c6_single_occurrence_replaced_witness :
    ("x=GETUTCDATE();".toList = "x=".toList ++ pat1 ++ ";".toList ∧
     numOccs pat1 "x=GETUTCDATE();".toList = 1 ∧
     ¬ pat2 <:+: "x=GETUTCDATE();".toList ∧ ¬ pat3 <:+: "x=GETUTCDATE();".toList ∧
     ¬ pat4 <:+: "x=GETUTCDATE();".toList) ∧
    fix_content "x=GETUTCDATE();".toList = "x=".toList ++ rep1 ++ ";".toList :=
  ⟨⟨by decide, by decide, by decide, by decide, by decide⟩,
    c6_single_occurrence_replaced "x=GETUTCDATE();".toList "x=".toList ";".toList
      (by decide) (by decide) (by decide) (by decide) (by decide)⟩

/-- C7: a file is written if and only if its transform differs from the
original: a changed file is overwritten with the transform and exactly one
`Fixed: <filename>` line is emitted for it; an unchanged file gets no
write and no report; after all candidates one final summary line is
printed (and it is the last output). -/
theorem c7_write_iff_changed (dir : List Entry) (hg : goodDir dir) :
    run dir = (dir.map (fun e =>
        if csSuffix e.name = true then { e with content := fix_content e.content } else e),
      (cs_files dir).flatMap (fileEvents dir) ++ [Event.print doneLine], none) ∧
    (∀ n e, n ∈ cs_files dir → findEntry dir n = some e →
      (fix_content e.content ≠ e.content →
        Event.write n (fix_content e.content) ∈ (run dir).2.1 ∧
        ((run dir).2.1.count (Event.print (fixedLine n))) = 1) ∧
      (fix_content e.content = e.content →
        (∀ c, Event.write n c ∉ (run dir).2.1) ∧
        Event.print (fixedLine n) ∉ (run dir).2.1)) ∧
    (run dir).2.1.getLast? = some (Event.print doneLine) := by
  refine ⟨run_good dir hg, ?_, ?_⟩
  · intro n e hn hfe
    constructor
    · intro hch
      constructor
      · rw [run_good dir hg]
        refine List.mem_append.mpr (Or.inl (List.mem_flatMap.mpr ⟨n, hn, ?_⟩))
        rw [fileEvents_eq_some hfe, if_neg hch]
        simp
      · rw [run_good dir hg]
        rw [List.count_append, count_fixed_flatMap dir n (cs_files dir) (cs_files_nodup hg.1),
          if_pos ⟨hn, e, hfe, hch⟩]
        have hne : Event.print doneLine ≠ Event.print (fixedLine n) :=
          fun h => fixedLine_ne_done n (Event.print.inj h).symm
        simp [List.count_cons, List.count_nil, hne]
    · intro hch
      exact no_write_events_of_unchanged dir hg hfe hch
  · rw [run_good dir hg]
    simp [List.getLast?_concat]

theorem c7_write_iff_changed_witness :
    goodDir [entryA, entryB] ∧
    (run [entryA, entryB] = ([entryA, entryB].map (fun e =>
        if csSuffix e.name = true then { e with content := fix_content e.content } else e),
      (cs_files [entryA, entryB]).flatMap (fileEvents [entryA, entryB])
        ++ [Event.print doneLine], none) ∧
     (∀ n e, n ∈ cs_files [entryA, entryB] → findEntry [entryA, entryB] n = some e →
       (fix_content e.content ≠ e.content →
         Event.write n (fix_content e.content) ∈ (run [entryA, entryB]).2.1 ∧
         ((run [entryA, entryB]).2.1.count (Event.print (fixedLine n))) = 1) ∧
       (fix_content e.content = e.content →
         (∀ c, Event.write n c ∉ (run [entryA, entryB]).2.1) ∧
         Event.print (fixedLine n) ∉ (run [entryA, entryB]).2.1)) ∧
     (run [entryA, entryB]).2.1.getLast? = some (Event.print doneLine)) :=
  ⟨by decide, c7_write_iff_changed [entryA, entryB] (by decide)⟩

/-- C8: the run has no failure handling — an I/O error on one candidate
(unreadable entry, directory in the way, or a denied write of a changed
file) terminates the run with the error: the final summary line is never
printed, every file processed before the failing one keeps its rewritten
content, and later files stay untouched (the final state updates exactly
the candidates processed before the failure). -/
theorem c8_error_aborts (dir : List Entry) (pre post : List (List Char)) (bad : List Char)
    (hcs : cs_files dir = pre ++ bad :: post)
    (hnd : (dir.map Entry.name).Nodup)
    (hpre : ∀ n ∈ pre, ∃ e, findEntry dir n = some e ∧
      e.isDir = false ∧ e.readOk = true ∧ e.writeOk = true)
    (hbad : (∀ e, findEntry dir bad = some e → e.isDir = true ∨ e.readOk = false) ∨
      (∃ e, findEntry dir bad = some e ∧ e.isDir = false ∧ e.readOk = true ∧
        e.writeOk = false ∧ fix_content e.content ≠ e.content)) :
    ((run dir).2.2).isSome = true ∧
    (run dir).1 = dir.map (fun e =>
      if e.name ∈ pre then { e with content := fix_content e.content } else e) ∧
    Event.print doneLine ∉ (run dir).2.1 := by
  have hall : (cs_files dir).Nodup := cs_files_nodup hnd
  rw [hcs] at hall
  rcases List.nodup_append.mp hall with ⟨hprend, _, hdisj⟩
  have hbadpre : bad ∉ pre := fun hb => hdisj hb (List.mem_cons_self bad post)
  set f : Entry → Entry := fun e =>
    if e.name ∈ pre then { e with content := fix_content e.content } else e with hfdef
  have hfname : ∀ e, (f e).name = e.name := by
    intro e
    simp only [hfdef]
    by_cases h : e.name ∈ pre
    · simp only [if_pos h]
    · simp only [if_neg h]
  have hfflags : ∀ e : Entry, (f e).isDir = e.isDir ∧ (f e).readOk = e.readOk ∧
      (f e).writeOk = e.writeOk := by
    intro e
    simp only [hfdef]
    by_cases h : e.name ∈ pre
    · simp [if_pos h]
    · simp [if_neg h]
  have hchar := processNames_good pre dir hnd hprend hpre
  have hfind' : findEntry (dir.map f) bad = (findEntry dir bad).map f :=
    findEntry_map_pres f hfname dir bad
  have happ := processNames_append pre dir (bad :: post) (by rw [hchar])
  rw [hchar] at happ
  dsimp only at happ
  rcases hbad with hb | ⟨e₀, hf₀, hd₀, hr₀, hw₀, hch₀⟩
  · have herr : readFile (dir.map f) bad = Except.error (IOError.readError bad) := by
      unfold readFile
      rw [hfind']
      cases hf₀ : findEntry dir bad with
      | none => rfl
      | some e₀ =>
        rcases hb e₀ hf₀ with hdd | hrr
        · have hfd : (f e₀).isDir = true := by rw [(hfflags e₀).1, hdd]
          simp [hfd]
        · have hfr : (f e₀).readOk = false := by rw [(hfflags e₀).2.1, hrr]
          simp [hfr]
    have hstep : processNames (dir.map f) (bad :: post)
        = (dir.map f, [], some (IOError.readError bad)) := by
      simp only [processNames, herr]
    have hrun : run dir = (dir.map f,
        pre.flatMap (fileEvents dir) ++ [], some (IOError.readError bad)) := by
      unfold run
      rw [hcs, happ, hstep]
    rw [hrun]
    refine ⟨rfl, rfl, ?_⟩
    intro hmem
    rcases List.mem_append.mp hmem with hmm | hmm
    · obtain ⟨m, _, hx⟩ := List.mem_flatMap.mp hmm
      exact done_not_in_fileEvents dir m hx
    · exact List.not_mem_nil _ hmm
  · have hfP : findEntry (dir.map f) bad = some (f e₀) := by
      rw [hfind', hf₀]
      rfl
    have hfe₀ : f e₀ = e₀ := by
      simp only [hfdef]
      rw [if_neg]
      intro hmem
      exact hbadpre ((findEntry_eq_some hf₀).2 ▸ hmem)
    have hfP' : findEntry (dir.map f) bad = some e₀ := by rw [hfP, hfe₀]
    have hread : readFile (dir.map f) bad = Except.ok e₀.content := by
      unfold readFile
      rw [hfP']
      simp [hd₀, hr₀]
    have hwf : writeFile (dir.map f) bad (fix_content e₀.content)
        = Except.error (IOError.writeError bad) := by
      unfold writeFile
      rw [hfP']
      simp [hw₀]
    have hstep : processNames (dir.map f) (bad :: post)
        = (dir.map f, [Event.read bad], some (IOError.writeError bad)) := by
      simp only [processNames, hread, if_neg hch₀, hwf]
    have hrun : run dir = (dir.map f,
        pre.flatMap (fileEvents dir) ++ [Event.read bad], some (IOError.writeError bad)) := by
      unfold run
      rw [hcs, happ, hstep]
    rw [hrun]
    refine ⟨rfl, rfl, ?_⟩
    intro hmem
    rcases List.mem_append.mp hmem with hmm | hmm
    · obtain ⟨m, _, hx⟩ := List.mem_flatMap.mp hmm
      exact done_not_in_fileEvents dir m hx
    · simp at hmm

theorem c8_error_aborts_witness :
    (cs_files [entryA, entryBad] = ["A.cs".toList] ++ "C.cs".toList :: [] ∧
     (([entryA, entryBad] : List Entry).map Entry.name).Nodup ∧
     (∀ n ∈ ["A.cs".toList], ∃ e, findEntry [entryA, entryBad] n = some e ∧
        e.isDir = false ∧ e.readOk = true ∧ e.writeOk = true) ∧
     (∀ e, findEntry [entryA, entryBad] ("C.cs".toList) = some e →
        e.isDir = true ∨ e.readOk = false)) ∧
    (((run [entryA, entryBad]).2.2).isSome = true ∧
     (run [entryA, entryBad]).1 = [entryA, entryBad].map (fun e =>
       if e.name ∈ ["A.cs".toList] then { e with content := fix_content e.content } else e) ∧
     Event.print doneLine ∉ (run [entryA, entryBad]).2.1) := by
  have hpre : ∀ n ∈ ["A.cs".toList], ∃ e, findEntry [entryA, entryBad] n = some e ∧
      e.isDir = false ∧ e.readOk = true ∧ e.writeOk = true := by
    intro n hn
    have hn' : n = "A.cs".toList := by simpa using hn
    subst hn'
    exact ⟨entryA, by decide, by decide, by decide, by decide⟩
  have hbadh : ∀ e, findEntry [entryA, entryBad] ("C.cs".toList) = some e →
      e.isDir = true ∨ e.readOk = false := by
    intro e he
    have hv : findEntry [entryA, entryBad] ("C.cs".toList) = some entryBad := by decide
    rw [hv] at he
    rw [← Option.some.inj he]
    exact Or.inr (by decide)
  exact ⟨⟨by decide, by decide, hpre, hbadh⟩,
    c8_error_aborts [entryA, entryBad] ["A.cs".toList] [] ("C.cs".toList)
      (by decide) (by decide) hpre (Or.inl hbadh)⟩

/-- C9: the final on-disk contents are independent of the order in which
the candidates are processed — processing any permutation of the candidate
list yields the same final directory state, both runs finish without
error, and only the trace's ordering can differ. -/
theorem c9_order_independent (dir : List Entry) (p : List (List Char)) (hg : goodDir dir)
    (hperm : p.Perm (cs_files dir)) :
    (processNames dir p).1 = (processNames dir (cs_files dir)).1 ∧
    ((processNames dir p).2.1).Perm ((processNames dir (cs_files dir)).2.1) ∧
    (processNames dir p).2.2 = none ∧ (processNames dir (cs_files dir)).2.2 = none := by
  have hnd := cs_files_nodup hg.1
  have hpnd : p.Nodup := hperm.nodup_iff.mpr hnd
  have h1 := processNames_good p dir hg.1 hpnd
    (fun n hn => goodDir_find hg (hperm.subset hn))
  have h2 := processNames_good (cs_files dir) dir hg.1 hnd (fun n hn => goodDir_find hg hn)
  rw [h1, h2]
  refine ⟨?_, ?_, rfl, rfl⟩
  · apply List.map_congr_left
    intro e _
    by_cases hm : e.name ∈ cs_files dir
    · rw [if_pos hm, if_pos (hperm.mem_iff.mpr hm)]
    · rw [if_neg hm, if_neg (fun hp => hm (hperm.mem_iff.mp hp))]
  · exact hperm.flatMap_right (fileEvents dir)

theorem c9_order_independent_witness :
    (goodDir [entryA, entryB] ∧
     (["B.cs".toList, "A.cs".toList] : List (List Char)).Perm (cs_files [entryA, entryB])) ∧
    ((processNames [entryA, entryB] ["B.cs".toList, "A.cs".toList]).1
        = (processNames [entryA, entryB] (cs_files [entryA, entryB])).1 ∧
     ((processNames [entryA, entryB] ["B.cs".toList, "A.cs".toList]).2.1).Perm
        ((processNames [entryA, entryB] (cs_files [entryA, entryB])).2.1) ∧
     (processNames [entryA, entryB] ["B.cs".toList, "A.cs".toList]).2.2 = none ∧
     (processNames [entryA, entryB] (cs_files [entryA, entryB])).2.2 = none) :=
  ⟨⟨by decide, by decide⟩,
    c9_order_independent [entryA, entryB] ["B.cs".toList, "A.cs".toList]
      (by decide) (by decide)⟩

/-- C10: when the directory holds no entry whose name ends in `.cs`, the
run touches nothing — no read, no write, no `Fixed:` line — and still
prints the single final completion message. -/
theorem c10_no_candidates (dir : List Entry) (h : ∀ e ∈ dir, csSuffix e.name = false) :
    run dir = (dir, [Event.print doneLine], none) := by
  have hfil : dir.filter (fun e => csSuffix e.name) = [] := by
    rw [List.filter_eq_nil_iff]
    intro e he
    simp [h e he]
  have hcs : cs_files dir = [] := by
    unfold cs_files
    rw [hfil]
    rfl
  unfold run
  rw [hcs]
  rfl

theorem c10_no_candidates_witness :
    (∀ e ∈ [entryNote], csSuffix e.name = false) ∧
    run [entryNote] = ([entryNote], [Event.print doneLine], none) :=
  ⟨by decide, c10_no_candidates [entryNote] (by decide)⟩

end FixConfigs
